import Mathlib

/-!
# IRIS gateway: channel history and push routing (iris-gateway/irc/gateway.go)

A shallow embedding of the PRIVMSG callback registered by InitGatewayBot, of
GetChannelHistory and of mentionInMessage.

Modelling conventions
* A Go string is modelled by its sequence of runes (List Char), i.e. the
  strings are taken to be valid UTF-8.
* A time.Time is modelled by its reading on the clock, an Int (nanoseconds);
  After is the strict order and Add is addition. A time.Duration is an int64:
  the unary minus of line 111 overflows at the least value (negDuration).
* The Unicode tables behind strings.ToLower, strings.EqualFold and the (?i)
  flag of package regexp are not part of the repository; they are taken as a
  parameter (CaseTable). A theorem holds for every table unless it names the
  ASCII table (asciiCase), which is what the tables are on ASCII text.
* Locks are dropped: the callback is modelled as one atomic step, taken when it
  holds the locks. The Timestamp of a message is read at line 89, before the
  locks are taken, so the stamps of the messages need not be in the order in
  which the messages are appended; the reading of line 111 is taken under the
  lock of the channel.
-/

namespace Irc

/-- A Go string, as its runes. -/
abbrev Str := List Char

/-- The case tables of package unicode that the gateway reaches through
strings.ToLower (lower, the lower-case mapping of one rune) and through
strings.EqualFold and the (?i) flag (fold, a canonical representative of the
simple-folding orbit of one rune: two runes are equal under folding iff they
have the same representative). -/
structure CaseTable where
  lower : Char → Char
  fold : Char → Char

/-- The restriction of the tables to ASCII: A..Z go to a..z, every other rune
is left alone. On ASCII text this agrees with package unicode. -/
def asciiCase : CaseTable where
  lower := fun c => if 65 ≤ c.toNat ∧ c.toNat ≤ 90 then Char.ofNat (c.toNat + 32) else c
  fold := fun c => if 65 ≤ c.toNat ∧ c.toNat ≤ 90 then Char.ofNat (c.toNat + 32) else c

/-- strings.ToLower. -/
def ToLower (U : CaseTable) (s : Str) : Str := s.map U.lower

/-- strings.EqualFold: equality under simple case folding, rune by rune. -/
def EqualFold (U : CaseTable) (s t : Str) : Bool := s.map U.fold == t.map U.fold

/-- strings.HasPrefix(s, "#"). -/
def HasPrefixHash (s : Str) : Bool :=
  match s with
  | c :: _ => c == '#'
  | [] => false

/-! ## Data model -/

/-- The struct Message. -/
structure Message where
  Channel : Str
  Sender : Str
  Text : Str
  Timestamp : Int
deriving DecidableEq, Repr

/-- The struct ChannelHistory (its mutex is dropped). -/
structure ChannelHistory where
  Messages : List Message
deriving DecidableEq, Repr

/-- The global historyMap: a Go map from channel key to a ChannelHistory. -/
abbrev HistoryMap := Str → Option ChannelHistory

/-- The initial value of historyMap, make(map[string]*ChannelHistory). -/
def emptyHistory : HistoryMap := fun _ => none

/-- Assignment historyMap[key] = value (also the effect of a write through the
pointer stored under key). -/
def HistoryMap.set (h : HistoryMap) (key : Str) (v : ChannelHistory) : HistoryMap :=
  fun k => if k = key then some v else h k

/-! ## History recording (gateway.go lines 92-126) -/

/-- The scan of lines 112-118 from index i on: the index of the first message
whose Timestamp is After the cutoff, or -1. -/
def firstValidFrom (cutoff : Int) : List Message → Nat → Int
  | [], _ => -1
  | msg :: rest, i => if msg.Timestamp > cutoff then (i : Int) else firstValidFrom cutoff rest (i + 1)

/-- The value of firstValidIndex after the loop of lines 112-118. -/
def firstValidIndex (cutoff : Int) (msgs : List Message) : Int :=
  firstValidFrom cutoff msgs 0

/-- Lines 119-124: the new value of chHistory.Messages. -/
def prune (cutoff : Int) (msgs : List Message) : List Message :=
  if firstValidIndex cutoff msgs > 0 then
    msgs.drop (firstValidIndex cutoff msgs).toNat
  else if firstValidIndex cutoff msgs = -1 ∧ msgs.length > 0 then
    []
  else
    msgs

/-- The least value of an int64, the type under time.Duration. -/
def minInt64 : Int := -9223372036854775808

/-- Unary minus on a time.Duration, as in -historyDuration: the negation of an
int64, which overflows at the least value and gives that value back. -/
def negDuration (d : Int) : Int := if d = minInt64 then minInt64 else -d

/-- The cutoff of line 111, time.Now().Add(-historyDuration), for the clock
reading now and the value d of historyDuration. -/
def cutoffAt (now d : Int) : Int := now + negDuration d

/-- Lines 93-126 for a message whose channel starts with "#": look the key up,
create the entry when absent, append, prune with the cutoff taken at time
now. The parameter d is the value of historyDuration, an int64. -/
def recordMessage (U : CaseTable) (d : Int) (h : HistoryMap) (message : Message) (now : Int) :
    HistoryMap :=
  let channelKey := ToLower U message.Channel
  let chHistory : ChannelHistory :=
    match h channelKey with
    | some ch => ch
    | none => ⟨[]⟩
  let appended := chHistory.Messages ++ [message]
  let cutoff := cutoffAt now d
  h.set channelKey ⟨prune cutoff appended⟩

/-- The function GetChannelHistory; the nil slice is the empty list. -/
def GetChannelHistory (U : CaseTable) (h : HistoryMap) (channel : Str) (limit : Int) :
    List Message :=
  let channelKey := ToLower U channel
  match h channelKey with
  | none => []
  | some chHistory =>
    if chHistory.Messages.length = 0 then []
    else if limit ≤ 0 ∨ limit ≥ (chHistory.Messages.length : Int) then chHistory.Messages
    else chHistory.Messages.drop (chHistory.Messages.length - limit.toNat)

/-! ## Mention detection (gateway.go lines 36-41)

mentionInMessage builds the pattern (?i)\b + QuoteMeta(username) + \b and asks
regexp.MatchString whether it matches somewhere in the text. Package regexp is
modelled on the part of its pattern language such a pattern can reach: the
leading flag group (?i), the empty-width assertion \b, a backslash followed by
a punctuation rune, and plain runes. -/

/-- The bytes regexp.QuoteMeta escapes (specialBytes). -/
def specialBytes : List Char :=
  [ '\\', '.', '+', '*', '?', '(', ')', '|', '[', ']', '\x7b', '\x7d', '^', '$']

/-- The function regexp.QuoteMeta: a backslash before every special byte. -/
def QuoteMeta : Str → Str
  | [] => []
  | c :: rest => if c ∈ specialBytes then '\\' :: c :: QuoteMeta rest else c :: QuoteMeta rest

/-- The pattern of line 38, fmt.Sprintf of (?i)\b%s\b. -/
def mentionPattern (username : Str) : Str :=
  [ '(', '?', 'i', ')', '\\', 'b'] ++ QuoteMeta username ++ [ '\\', 'b']

/-- One element of a parsed pattern: a literal rune, or the assertion \b. -/
inductive Inst where
  | rune (c : Char)
  | wordBoundary
deriving DecidableEq, Repr

/-- The runes that start an operator in the pattern parser of package regexp
(the cases of the main switch of its parse loop other than the backslash). -/
def operatorRunes : List Char :=
  [ '(', ')', '|', '^', '$', '.', '[', '*', '+', '?', '\x7b']

/-- The test isalnum of the pattern parser. -/
def isalnum (c : Char) : Bool :=
  ( '0' ≤ c && c ≤ '9') || ( 'A' ≤ c && c ≤ 'Z') || ( 'a' ≤ c && c ≤ 'z')

/-- The parse loop on a pattern without operators. A backslash followed by b
is the assertion \b; a backslash followed by an ASCII rune that is not
alphanumeric is that rune (parseEscape); a rune that starts no operator is
itself. The result is none on a trailing backslash (a compile error) and on
everything this model does not cover: an operator rune, or a backslash followed
by any other rune. -/
def parseItems : Str → Option (List Inst)
  | [] => some []
  | c :: rest =>
    if c = '\\' then
      match rest with
      | [] => none
      | e :: rest2 =>
        if e = 'b' then (parseItems rest2).map (fun is => Inst.wordBoundary :: is)
        else if e.toNat < 128 ∧ isalnum e = false then
          (parseItems rest2).map (fun is => Inst.rune e :: is)
        else none
    else if c ∈ operatorRunes then none
    else (parseItems rest).map (fun is => Inst.rune c :: is)

/-- A compiled pattern: whether the fold-case flag is on, and the items. -/
structure Prog where
  foldCase : Bool
  insts : List Inst
deriving DecidableEq, Repr

/-- The function regexp.Compile on the modelled patterns: a leading (?i) turns
the fold-case flag on. -/
def compile (pattern : Str) : Option Prog :=
  match pattern with
  | a :: b :: c :: e :: rest =>
    if a = '(' ∧ b = '?' ∧ c = 'i' ∧ e = ')' then (parseItems rest).map (Prog.mk true)
    else (parseItems pattern).map (Prog.mk false)
  | _ => (parseItems pattern).map (Prog.mk false)

/-- The word runes of \b (IsWordChar): ASCII letters, digits and underscore. -/
def IsWordChar (c : Char) : Bool :=
  ( 'A' ≤ c && c ≤ 'Z') || ( 'a' ≤ c && c ≤ 'z') || ( '0' ≤ c && c ≤ '9') || c == '_'

/-- IsWordChar of the rune next to a position; false past either end of the
text. -/
def wordAt : Option Char → Bool
  | some c => IsWordChar c
  | none => false

/-- The assertion \b between the runes prev and next: exactly one is a word
rune. -/
def atWordBoundary (prev next : Option Char) : Bool :=
  wordAt prev != wordAt next

/-- Whether the literal rune c of a pattern matches the rune r of the text:
equality, or under the fold-case flag membership in the same folding orbit. -/
def runeMatches (U : CaseTable) (foldCase : Bool) (c r : Char) : Bool :=
  c == r || (foldCase && U.fold c == U.fold r)

/-- Match of the items at one position of the text: prev is the rune before
the position, the list holds the runes from the position on. -/
def matchHere (U : CaseTable) (foldCase : Bool) : List Inst → Option Char → Str → Bool
  | [], _, _ => true
  | Inst.wordBoundary :: is, prev, rest =>
    atWordBoundary prev rest.head? && matchHere U foldCase is prev rest
  | Inst.rune _ :: _, _, [] => false
  | Inst.rune c :: is, _, r :: rest =>
    runeMatches U foldCase c r && matchHere U foldCase is (some r) rest

/-- Unanchored search: a match at the current position or at a later one. -/
def searchFrom (U : CaseTable) (foldCase : Bool) (is : List Inst) : Option Char → Str → Bool
  | prev, [] => matchHere U foldCase is prev []
  | prev, r :: rest =>
    matchHere U foldCase is prev (r :: rest) || searchFrom U foldCase is (some r) rest

/-- The function regexp.MatchString: the match flag, and whether compilation
failed (the error value). -/
def MatchString (U : CaseTable) (pattern text : Str) : Bool × Bool :=
  match compile pattern with
  | none => (false, true)
  | some p => (searchFrom U p.foldCase p.insts none text, false)

/-- The function mentionInMessage: the error of MatchString is discarded. -/
def mentionInMessage (U : CaseTable) (username text : Str) : Bool :=
  (MatchString U (mentionPattern username) text).1

/-- The reading of a mention in the specification: the text holds an occurrence
of the username, up to case folding, and the rune before the occurrence and the
rune after it, where there is one, are not word runes. -/
def boundedOccurrence (U : CaseTable) (username text : Str) : Prop :=
  ∃ pre occ post, text = pre ++ occ ++ post ∧ occ.map U.fold = username.map U.fold ∧
    wordAt pre.getLast? = false ∧ wordAt post.head? = false

/-! ## Push routing (gateway.go lines 130-179) -/

/-- The fields of session.UserSession the callback reads; Channels is the key
set of the map of joined channels. -/
structure UserSession where
  Username : Str
  FCMToken : Str
  Channels : List Str
deriving DecidableEq, Repr

/-- The arguments of one call of push.SendPushNotification; data lists the
entries of the payload map. -/
structure Push where
  token : Str
  title : Str
  body : Str
  data : List (Str × Str)
deriving DecidableEq, Repr

/-- The body of the function passed to session.ForEachSession, for one
session: the push it dispatches, if any. -/
def notifySession (U : CaseTable) (channel sender messageContent : Str) (s : UserSession) :
    Option Push :=
  let normalizedChannel := ToLower U channel
  let inChannel := decide (normalizedChannel ∈ s.Channels)
  let fcmToken := s.FCMToken
  let username := s.Username
  if !HasPrefixHash channel then
    if EqualFold U channel username && decide (fcmToken ≠ []) && decide (username ≠ sender) then
      some
        { token := fcmToken
          title := "Direct message from ".data ++ sender
          body := messageContent
          data := [("sender".data, sender), ("channel_name".data, channel),
            ("type".data, "dm".data)] }
    else none
  else if inChannel && decide (username ≠ sender) && decide (fcmToken ≠ []) then
    if mentionInMessage U username messageContent then
      some
        { token := fcmToken
          title := "Mention in ".data ++ channel
          body := sender ++ ": ".data ++ messageContent
          data := [("sender".data, sender), ("channel_name".data, channel),
            ("type".data, "mention".data)] }
    else none
  else none

/-- The call session.ForEachSession: the function runs once per active session;
the result lists the pushes dispatched, in the order of the sessions. -/
def routeNotifications (U : CaseTable) (channel sender messageContent : Str)
    (sessions : List UserSession) : List Push :=
  sessions.filterMap (notifySession U channel sender messageContent)

/-! ## The PRIVMSG callback -/

/-- An inbound PRIVMSG with both of its arguments, together with the two
readings of time.Now() the callback takes: stamp at line 89 (the Timestamp of
the message) and pruneAt at line 111 (from which the cutoff is computed; not
read for a direct message). -/
structure Inbound where
  channel : Str
  sender : Str
  messageContent : Str
  stamp : Int
  pruneAt : Int
deriving DecidableEq, Repr

/-- The Message built at lines 85-90. -/
def Inbound.message (e : Inbound) : Message :=
  { Channel := e.channel, Sender := e.sender, Text := e.messageContent, Timestamp := e.stamp }

/-- Lines 92-126: the effect of one inbound message on historyMap. -/
def recordInbound (U : CaseTable) (d : Int) (h : HistoryMap) (e : Inbound) : HistoryMap :=
  if HasPrefixHash e.channel then recordMessage U d h e.message e.pruneAt else h

/-- The body of the PRIVMSG callback after the arguments are read: the new
historyMap and the pushes dispatched. -/
def onPrivmsg (U : CaseTable) (d : Int) (sessions : List UserSession) (h : HistoryMap)
    (e : Inbound) : HistoryMap × List Push :=
  (recordInbound U d h e, routeNotifications U e.channel e.sender e.messageContent sessions)

/-- The ircevent.Event fields the callback reads. -/
structure Event where
  Arguments : List Str
  Nick : Str
deriving DecidableEq, Repr

/-- The PRIVMSG callback of lines 78-181. Indexing Arguments[0] and
Arguments[1] panics on an event with fewer than two arguments: the result is
none. -/
def privmsgCallback (U : CaseTable) (d : Int) (sessions : List UserSession) (h : HistoryMap)
    (e : Event) (stamp pruneAt : Int) : Option (HistoryMap × List Push) :=
  match e.Arguments with
  | channel :: messageContent :: _ =>
    some (onPrivmsg U d sessions h ⟨channel, e.Nick, messageContent, stamp, pruneAt⟩)
  | _ => none

/-- The historyMap after a sequence of inbound messages, processed in order. -/
def recordAll (U : CaseTable) (d : Int) (h : HistoryMap) (es : List Inbound) : HistoryMap :=
  es.foldl (fun acc e => (onPrivmsg U d [] acc e).1) h

/-- The messages stored under a key; empty when the key is absent. -/
def stored (h : HistoryMap) (key : Str) : List Message :=
  match h key with
  | some ch => ch.Messages
  | none => []

/-- The inbound messages of a run that are recorded under a key: those whose
channel starts with "#" and lower-cases to the key, in arrival order. -/
def arrivals (U : CaseTable) (key : Str) (es : List Inbound) : List Inbound :=
  es.filter (fun e => HasPrefixHash e.channel && decide (ToLower U e.channel = key))

/-- Lines 107-124 on the slice of one channel: append the message, then prune
with the cutoff taken at the time of the second clock reading. -/
def appendAndPrune (d : Int) (msgs : List Message) (e : Inbound) : List Message :=
  prune (cutoffAt e.pruneAt d) (msgs ++ [e.message])

/-! ## Configuration of the retention window (gateway.go lines 29-34, 66-72) -/

/-- The constant time.Hour, in nanoseconds. -/
def Hour : Int := 3600 * 1000000000

/-- The initial value of the global historyDuration, 7 * 24 * time.Hour. -/
def defaultHistoryDuration : Int := 7 * 24 * Hour

/-- The effect of InitGatewayBot on the global historyDuration, with whether it
returns an error. ParseDuration stands for time.ParseDuration (none is a parse
error) and authenticated for the outcome of AuthenticateWithNickServ, whose
failure returns before the configuration is read. The arguments configured and
historyDuration are config.Cfg.HistoryDuration and the value of the global when
the function is entered. -/
def InitGatewayBot (ParseDuration : Str → Option Int) (authenticated : Bool) (configured : Str)
    (historyDuration : Int) : Bool × Int :=
  if !authenticated then (true, historyDuration)
  else
    match ParseDuration configured with
    | none => (false, historyDuration)
    | some duration => (false, duration)

/-- The test of the prune scan, negated: the message is not After the cutoff. -/
def stale (cutoff : Int) (m : Message) : Bool := !decide (m.Timestamp > cutoff)

/-! ## Lemmas on the cutoff -/

theorem cutoffAt_eq_sub (now d : Int) (hd : d ≠ minInt64) : cutoffAt now d = now - d := by
  simp only [cutoffAt, negDuration, hd, if_false]
  omega

theorem cutoffAt_le_sub (now d : Int) : cutoffAt now d ≤ now - d := by
  by_cases hd : d = minInt64
  · subst hd
    simp only [cutoffAt, negDuration, if_true, minInt64]
    omega
  · exact le_of_eq (cutoffAt_eq_sub now d hd)

/-- With historyDuration at the least int64 value the negation overflows, the
cutoff lies in the past and the message just appended is kept. -/
theorem least_duration_keeps_message :
    GetChannelHistory asciiCase
        (recordAll asciiCase minInt64 emptyHistory
          [⟨"#go".data, "ann".data, "hi".data, 100, 100⟩]) "#go".data 0 =
      [⟨"#go".data, "ann".data, "hi".data, 100⟩] := by
  decide

/-! ## Lemmas on the prune step -/

theorem firstValidFrom_spec (cutoff : Int) : ∀ (msgs : List Message) (i : Nat),
    (firstValidFrom cutoff msgs i = -1 ∧ msgs.dropWhile (stale cutoff) = []) ∨
    (∃ k : Nat, firstValidFrom cutoff msgs i = ((i + k : Nat) : Int) ∧
      msgs.dropWhile (stale cutoff) = msgs.drop k ∧ k < msgs.length) := by
  intro msgs
  induction msgs with
  | nil => intro i; left; simp [firstValidFrom]
  | cons m rest ih =>
    intro i
    by_cases hm : m.Timestamp > cutoff
    · right
      refine ⟨0, ?_, ?_, ?_⟩
      · simp [firstValidFrom, hm]
      · simp [List.dropWhile, stale, hm]
      · simp
    · rcases ih (i + 1) with ⟨h1, h2⟩ | ⟨k, h1, h2, h3⟩
      · left
        simp [firstValidFrom, hm, h1, List.dropWhile, stale, h2]
      · right
        refine ⟨k + 1, ?_, ?_, ?_⟩
        · simp [firstValidFrom, hm, h1]; omega
        · simp [List.dropWhile, stale, hm]
          simpa [stale] using h2
        · simp; omega

theorem prune_eq_dropWhile (cutoff : Int) (msgs : List Message) :
    prune cutoff msgs = msgs.dropWhile (stale cutoff) := by
  unfold prune firstValidIndex
  rcases firstValidFrom_spec cutoff msgs 0 with ⟨h1, h2⟩ | ⟨k, h1, h2, h3⟩
  · rw [h1, h2]
    cases msgs with
    | nil => simp
    | cons m rest => simp
  · rw [h1, h2]
    by_cases hk : k = 0
    · subst hk; simp
    · have hpos : ((0 + k : Nat) : Int) > 0 := by omega
      rw [if_pos hpos]
      simp

/-! ## Lemmas on the history map -/

theorem stored_recordInbound (U : CaseTable) (d : Int) (h : HistoryMap) (e : Inbound)
    (k : Str) :
    stored (recordInbound U d h e) k =
      if HasPrefixHash e.channel = true ∧ k = ToLower U e.channel then
        prune (cutoffAt e.pruneAt d) (stored h k ++ [e.message])
      else stored h k := by
  unfold recordInbound
  by_cases hp : HasPrefixHash e.channel = true
  · by_cases hk : k = ToLower U e.channel
    · subst hk
      simp only [hp, if_true, and_self, recordMessage, stored, HistoryMap.set, Inbound.message]
      cases h (ToLower U e.channel) <;> rfl
    · simp [hp, hk, recordMessage, stored, HistoryMap.set, Inbound.message]
  · simp [hp]

theorem recordAll_nil (U : CaseTable) (d : Int) (h : HistoryMap) : recordAll U d h [] = h := rfl

theorem recordAll_cons (U : CaseTable) (d : Int) (h : HistoryMap) (e : Inbound)
    (es : List Inbound) :
    recordAll U d h (e :: es) = recordAll U d (recordInbound U d h e) es := rfl

theorem recordAll_append (U : CaseTable) (d : Int) (h : HistoryMap) (es fs : List Inbound) :
    recordAll U d h (es ++ fs) = recordAll U d (recordAll U d h es) fs := by
  simp [recordAll, List.foldl_append]

theorem prune_sublist (cutoff : Int) (msgs : List Message) : (prune cutoff msgs).Sublist msgs := by
  rw [prune_eq_dropWhile]
  exact (List.dropWhile_suffix _).sublist

/-- The timestamps stored under a key are, in order, among those already stored
followed by the stamps of the messages that arrived since. -/
theorem stored_stamps_sublist (U : CaseTable) (d : Int) (k : Str) :
    ∀ (es : List Inbound) (h : HistoryMap),
      ((stored (recordAll U d h es) k).map Message.Timestamp).Sublist
        ((stored h k).map Message.Timestamp ++ es.map Inbound.stamp) := by
  intro es
  induction es with
  | nil => intro h; simp [recordAll_nil]
  | cons e es ih =>
    intro h
    rw [recordAll_cons]
    refine (ih (recordInbound U d h e)).trans ?_
    have hstep : ((stored (recordInbound U d h e) k).map Message.Timestamp).Sublist
        ((stored h k).map Message.Timestamp ++ [e.stamp]) := by
      rw [stored_recordInbound]
      split
      · have := (prune_sublist (cutoffAt e.pruneAt d) (stored h k ++ [e.message])).map Message.Timestamp
        simpa [Inbound.message] using this
      · exact List.sublist_append_left _ _
    have := hstep.append (List.Sublist.refl (es.map Inbound.stamp))
    simpa using this

theorem dropWhile_fresh_of_sorted (cutoff : Int) :
    ∀ msgs : List Message, (msgs.map Message.Timestamp).Pairwise (· ≤ ·) →
      ∀ m ∈ msgs.dropWhile (stale cutoff), cutoff < m.Timestamp := by
  intro msgs
  induction msgs with
  | nil => intro _ m hm; simp at hm
  | cons a l ih =>
    intro hs m hm
    rw [List.map_cons, List.pairwise_cons] at hs
    by_cases ha : a.Timestamp > cutoff
    · have hd : (a :: l).dropWhile (stale cutoff) = a :: l := by
        simp [List.dropWhile, stale, ha]
      rw [hd] at hm
      rcases List.mem_cons.1 hm with rfl | hml
      · exact ha
      · have := hs.1 m.Timestamp (List.mem_map_of_mem _ hml)
        omega
    · have hd : (a :: l).dropWhile (stale cutoff) = l.dropWhile (stale cutoff) := by
        simp [List.dropWhile, stale, ha]
      rw [hd] at hm
      exact ih hs.2 m hm

theorem GetChannelHistory_eq (U : CaseTable) (h : HistoryMap) (channel : Str) (limit : Int) :
    GetChannelHistory U h channel limit =
      if limit ≤ 0 ∨ limit ≥ ((stored h (ToLower U channel)).length : Int) then
        stored h (ToLower U channel)
      else (stored h (ToLower U channel)).drop
        ((stored h (ToLower U channel)).length - limit.toNat) := by
  simp only [GetChannelHistory, stored]
  generalize h (ToLower U channel) = o
  cases o with
  | none =>
    have : limit ≤ 0 ∨ 0 ≤ limit := le_total _ _
    simp [this]
  | some ch =>
    by_cases h0 : ch.Messages.length = 0
    · have hnil : ch.Messages = [] := List.length_eq_zero.1 h0
      have : limit ≤ 0 ∨ 0 ≤ limit := le_total _ _
      simp [hnil, this]
    · simp only [h0, if_false]

theorem GetChannelHistory_zero (U : CaseTable) (h : HistoryMap) (channel : Str) :
    GetChannelHistory U h channel 0 = stored h (ToLower U channel) := by
  rw [GetChannelHistory_eq]
  simp

theorem prune_of_fresh (cutoff : Int) (msgs : List Message)
    (hf : ∀ m ∈ msgs, cutoff < m.Timestamp) : prune cutoff msgs = msgs := by
  rw [prune_eq_dropWhile]
  cases msgs with
  | nil => rfl
  | cons a l =>
    have ha : cutoff < a.Timestamp := hf a (List.mem_cons_self _ _)
    simp [List.dropWhile, stale, ha]

/-- Recording a run of messages of one channel, each message that has arrived
being newer than the cutoff of every prune from its arrival on, appends the run
to what the channel holds. -/
theorem stored_recordAll_fresh (U : CaseTable) (d : Int) (key : Str) :
    ∀ (es : List Inbound) (h : HistoryMap),
      (∀ e ∈ es, HasPrefixHash e.channel = true ∧ ToLower U e.channel = key) →
      (∀ m ∈ stored h key, ∀ e ∈ es, cutoffAt e.pruneAt d < m.Timestamp) →
      (∀ pre e post, es = pre ++ e :: post → ∀ m ∈ pre ++ [e], cutoffAt e.pruneAt d < m.stamp) →
      stored (recordAll U d h es) key = stored h key ++ es.map Inbound.message := by
  intro es
  induction es with
  | nil => intro h _ _ _; simp [recordAll_nil]
  | cons e es ih =>
    intro h hch hold hnew
    have hstep : stored (recordInbound U d h e) key = stored h key ++ [e.message] := by
      rw [stored_recordInbound, if_pos ⟨(hch e (List.mem_cons_self _ _)).1,
        (hch e (List.mem_cons_self _ _)).2.symm⟩]
      apply prune_of_fresh
      intro m hm
      rcases List.mem_append.1 hm with hm | hm
      · exact hold m hm e (List.mem_cons_self _ _)
      · have hme : m = e.message := by simpa using hm
        subst hme
        exact hnew [] e es rfl e (by simp)
    rw [recordAll_cons, ih (recordInbound U d h e), hstep]
    · simp
    · intro f hf
      exact hch f (List.mem_cons_of_mem _ hf)
    · intro m hm f hf
      rw [hstep] at hm
      rcases List.mem_append.1 hm with hm | hm
      · exact hold m hm f (List.mem_cons_of_mem _ hf)
      · have hme : m = e.message := by simpa using hm
        subst hme
        obtain ⟨pre, post, hsplit⟩ := List.append_of_mem hf
        exact hnew (e :: pre) f post (by rw [hsplit]; rfl) e (by simp)
    · intro pre f post hsplit m hm
      exact hnew (e :: pre) f post (by rw [hsplit]; rfl) m
        (by simpa using Or.inr (by simpa using hm))

/-! ## Lemmas on the pattern of mentionInMessage -/

theorem specialBytes_escape : ∀ c ∈ specialBytes,
    c ≠ 'b' ∧ c.toNat < 128 ∧ isalnum c = false := by decide

theorem operatorRunes_special : ∀ c ∈ operatorRunes, c ∈ specialBytes := by decide

theorem parseItems_backslash (e : Char) (rest : Str) :
    parseItems ( '\\' :: e :: rest) =
      if e = 'b' then (parseItems rest).map (fun is => Inst.wordBoundary :: is)
      else if e.toNat < 128 ∧ isalnum e = false then
        (parseItems rest).map (fun is => Inst.rune e :: is)
      else none := by
  rw [parseItems.eq_def]
  simp

theorem parseItems_plain (c : Char) (rest : Str) (hbs : c ≠ '\\') (hop : c ∉ operatorRunes) :
    parseItems (c :: rest) = (parseItems rest).map (fun is => Inst.rune c :: is) := by
  rw [parseItems.eq_def]
  simp [hbs, hop]

/-- The parser reads a quoted string back as the runes that were quoted: no rune
of it acts as an operator. -/
theorem parseItems_QuoteMeta (tail : Str) : ∀ u : Str,
    parseItems (QuoteMeta u ++ tail) =
      (parseItems tail).map (fun is => u.map Inst.rune ++ is) := by
  intro u
  induction u with
  | nil => simp [QuoteMeta]
  | cons c rest ih =>
    by_cases hc : c ∈ specialBytes
    · obtain ⟨hb, hascii, halnum⟩ := specialBytes_escape c hc
      have hq : QuoteMeta (c :: rest) ++ tail = '\\' :: c :: (QuoteMeta rest ++ tail) := by
        simp [QuoteMeta, hc]
      rw [hq, parseItems_backslash, if_neg hb, if_pos ⟨hascii, halnum⟩, ih]
      cases parseItems tail <;> simp
    · have hbs : c ≠ '\\' := by
        intro h; subst h; exact hc (by decide)
      have hop : c ∉ operatorRunes := fun h => hc (operatorRunes_special c h)
      have hq : QuoteMeta (c :: rest) ++ tail = c :: (QuoteMeta rest ++ tail) := by
        simp [QuoteMeta, hc]
      rw [hq, parseItems_plain c _ hbs hop, ih]
      cases parseItems tail <;> simp

theorem compile_mentionPattern (u : Str) :
    compile (mentionPattern u) =
      some ⟨true, Inst.wordBoundary :: (u.map Inst.rune ++ [Inst.wordBoundary])⟩ := by
  have htail : parseItems [ '\\', 'b'] = some [Inst.wordBoundary] := by decide
  have hitems : parseItems ( '\\' :: 'b' :: (QuoteMeta u ++ [ '\\', 'b'])) =
      some (Inst.wordBoundary :: (u.map Inst.rune ++ [Inst.wordBoundary])) := by
    rw [parseItems_backslash]
    simp [parseItems_QuoteMeta, htail]
  simp [mentionPattern, compile, hitems]

theorem runeMatches_fold (U : CaseTable) (c r : Char) :
    runeMatches U true c r = true ↔ U.fold c = U.fold r := by
  simp only [runeMatches, Bool.true_and, Bool.or_eq_true, beq_iff_eq]
  constructor
  · rintro (h | h)
    · rw [h]
    · exact h
  · exact Or.inr

/-- The literal runes of a username match at a position exactly when the text
goes on with a string equal to the username under folding. -/
theorem matchHere_runes (U : CaseTable) (tl : List Inst) : ∀ (u pre rest : Str),
    matchHere U true (u.map Inst.rune ++ tl) pre.getLast? rest = true ↔
      ∃ occ post, rest = occ ++ post ∧ occ.map U.fold = u.map U.fold ∧
        matchHere U true tl (pre ++ occ).getLast? post = true := by
  intro u
  induction u with
  | nil =>
    intro pre rest
    constructor
    · intro h
      exact ⟨[], rest, rfl, rfl, by simpa using h⟩
    · rintro ⟨occ, post, hrest, hocc, hm⟩
      have : occ = [] := by simpa using hocc
      subst this
      simpa [hrest] using hm
  | cons c u ih =>
    intro pre rest
    cases rest with
    | nil =>
      constructor
      · intro h
        simp [matchHere] at h
      · rintro ⟨occ, post, hrest, hocc, _⟩
        have hnil : occ = [] := by
          have := congrArg List.length hrest
          simp at this
          exact List.length_eq_zero.1 (by omega)
        subst hnil
        simp at hocc
    | cons r rest =>
      have hstep : matchHere U true ((c :: u).map Inst.rune ++ tl) pre.getLast? (r :: rest) =
          (runeMatches U true c r &&
            matchHere U true (u.map Inst.rune ++ tl) (pre ++ [r]).getLast? rest) := by
        simp [matchHere]
      rw [hstep, Bool.and_eq_true, runeMatches_fold, ih (pre ++ [r]) rest]
      constructor
      · rintro ⟨hc, occ, post, hrest, hocc, hm⟩
        refine ⟨r :: occ, post, by simp [hrest], by simp [hc, hocc], ?_⟩
        simpa using hm
      · rintro ⟨occ, post, hrest, hocc, hm⟩
        cases occ with
        | nil => simp at hocc
        | cons a occ =>
          simp only [List.cons_append, List.cons.injEq] at hrest
          obtain ⟨rfl, hrest⟩ := hrest
          simp only [List.map_cons, List.cons.injEq] at hocc
          refine ⟨hocc.1.symm, occ, post, hrest, hocc.2, ?_⟩
          simpa using hm

/-- The unanchored search succeeds exactly when the items match at some
position of the text. -/
theorem searchFrom_iff (U : CaseTable) (fc : Bool) (is : List Inst) : ∀ (rest pre : Str),
    searchFrom U fc is pre.getLast? rest = true ↔
      ∃ skipped tail, rest = skipped ++ tail ∧
        matchHere U fc is (pre ++ skipped).getLast? tail = true := by
  intro rest
  induction rest with
  | nil =>
    intro pre
    constructor
    · intro h
      exact ⟨[], [], rfl, by simpa [searchFrom] using h⟩
    · rintro ⟨skipped, tail, hsplit, hm⟩
      have h1 : skipped = [] := by
        cases skipped with
        | nil => rfl
        | cons a l => simp at hsplit
      have h2 : tail = [] := by
        subst h1; simpa using hsplit.symm
      subst h1; subst h2
      simpa [searchFrom] using hm
  | cons r rest ih =>
    intro pre
    have hstep : searchFrom U fc is pre.getLast? (r :: rest) =
        (matchHere U fc is pre.getLast? (r :: rest) ||
          searchFrom U fc is (pre ++ [r]).getLast? rest) := by
      simp [searchFrom]
    rw [hstep, Bool.or_eq_true, ih (pre ++ [r])]
    constructor
    · rintro (h | ⟨skipped, tail, hsplit, hm⟩)
      · exact ⟨[], r :: rest, rfl, by simpa using h⟩
      · exact ⟨r :: skipped, tail, by simp [hsplit], by simpa using hm⟩
    · rintro ⟨skipped, tail, hsplit, hm⟩
      cases skipped with
      | nil =>
        left
        simp only [List.nil_append] at hsplit
        subst hsplit
        simpa using hm
      | cons a skipped =>
        right
        simp only [List.cons_append, List.cons.injEq] at hsplit
        obtain ⟨rfl, hsplit⟩ := hsplit
        exact ⟨skipped, tail, hsplit, by simpa using hm⟩

/-- What mentionInMessage computes: an occurrence of the username, up to case
folding, with the assertion \b holding at both of its ends. -/
theorem mentionInMessage_iff (U : CaseTable) (username text : Str) :
    mentionInMessage U username text = true ↔
      ∃ pre occ post, text = pre ++ occ ++ post ∧
        occ.map U.fold = username.map U.fold ∧
        atWordBoundary pre.getLast? (occ ++ post).head? = true ∧
        atWordBoundary (pre ++ occ).getLast? post.head? = true := by
  have hs := searchFrom_iff U true
    (Inst.wordBoundary :: (username.map Inst.rune ++ [Inst.wordBoundary])) text []
  simp only [List.getLast?_nil, List.nil_append] at hs
  simp only [mentionInMessage, MatchString, compile_mentionPattern]
  rw [hs]
  constructor
  · rintro ⟨pre, tail, hsplit, hm⟩
    simp only [matchHere, Bool.and_eq_true] at hm
    obtain ⟨hb, hm⟩ := hm
    obtain ⟨occ, post, htail, hocc, hend⟩ := (matchHere_runes U _ username pre tail).1 hm
    simp only [matchHere, Bool.and_true] at hend
    subst htail
    exact ⟨pre, occ, post, by simp [hsplit], hocc, hb, hend⟩
  · rintro ⟨pre, occ, post, hsplit, hocc, hb, hend⟩
    refine ⟨pre, occ ++ post, by simp [hsplit], ?_⟩
    simp only [matchHere, Bool.and_eq_true]
    refine ⟨hb, (matchHere_runes U _ username pre (occ ++ post)).2 ⟨occ, post, rfl, hocc, ?_⟩⟩
    simp only [matchHere, Bool.and_true]
    exact hend

/-- With a username whose first and last runes are word runes, as is every rune
equal to them under folding, the assertion \b at both ends says that the
neighbours of the occurrence are not word runes. -/
theorem mention_iff_bounded_of_word_edges (U : CaseTable) (username text : Str) (a z : Char)
    (hfirst : username.head? = some a) (hlast : username.getLast? = some z)
    (ha : ∀ c, U.fold c = U.fold a → IsWordChar c = true)
    (hz : ∀ c, U.fold c = U.fold z → IsWordChar c = true) :
    mentionInMessage U username text = true ↔ boundedOccurrence U username text := by
  rw [mentionInMessage_iff]
  have hedges : ∀ occ : Str, occ.map U.fold = username.map U.fold →
      ∃ a2 z2, occ.head? = some a2 ∧ occ.getLast? = some z2 ∧
        IsWordChar a2 = true ∧ IsWordChar z2 = true := by
    intro occ hocc
    have h1 : (occ.map U.fold).head? = (username.map U.fold).head? := by rw [hocc]
    have h2 : (occ.map U.fold).getLast? = (username.map U.fold).getLast? := by rw [hocc]
    rw [List.head?_map, List.head?_map, hfirst] at h1
    rw [List.getLast?_map, List.getLast?_map, hlast] at h2
    cases ho : occ.head? with
    | none => rw [ho] at h1; simp at h1
    | some a2 =>
      cases hl : occ.getLast? with
      | none => rw [hl] at h2; simp at h2
      | some z2 =>
        rw [ho] at h1; rw [hl] at h2
        simp only [Option.map_some', Option.some.injEq] at h1 h2
        exact ⟨a2, z2, rfl, rfl, ha a2 h1, hz z2 h2⟩
  constructor
  · rintro ⟨pre, occ, post, hsplit, hocc, hb, he⟩
    obtain ⟨a2, z2, ho, hl, hwa, hwz⟩ := hedges occ hocc
    refine ⟨pre, occ, post, hsplit, hocc, ?_, ?_⟩
    · have hh : (occ ++ post).head? = some a2 := by
        cases occ with
        | nil => simp at ho
        | cons x xs => simpa using ho
      rw [hh] at hb
      simpa [atWordBoundary, wordAt, hwa] using hb
    · have hh : (pre ++ occ).getLast? = some z2 := by
        rw [List.getLast?_append, hl]; rfl
      rw [hh] at he
      simpa [atWordBoundary, wordAt, hwz] using he
  · rintro ⟨pre, occ, post, hsplit, hocc, hb, he⟩
    obtain ⟨a2, z2, ho, hl, hwa, hwz⟩ := hedges occ hocc
    refine ⟨pre, occ, post, hsplit, hocc, ?_, ?_⟩
    · have hh : (occ ++ post).head? = some a2 := by
        cases occ with
        | nil => simp at ho
        | cons x xs => simpa using ho
      rw [hh]
      unfold atWordBoundary
      rw [hb]
      simp [wordAt, hwa]
    · have hh : (pre ++ occ).getLast? = some z2 := by
        rw [List.getLast?_append, hl]; rfl
      rw [hh]
      unfold atWordBoundary
      rw [he]
      simp [wordAt, hwz]

theorem upper_isWordChar (c : Char) (h : 65 ≤ c.toNat ∧ c.toNat ≤ 90) : IsWordChar c = true := by
  have h1 : 'A' ≤ c := by
    rw [Char.le_def, UInt32.le_def]
    exact h.1
  have h2 : c ≤ 'Z' := by
    rw [Char.le_def, UInt32.le_def]
    exact h.2
  simp [IsWordChar, h1, h2]

/-- Under the ASCII table only a word rune folds to the fold of a lower-case
word rune. -/
theorem asciiCase_fold_word (a c : Char) (ha : IsWordChar a = true)
    (hlow : ¬ (65 ≤ a.toNat ∧ a.toNat ≤ 90)) (h : asciiCase.fold c = asciiCase.fold a) :
    IsWordChar c = true := by
  simp only [asciiCase, hlow, if_false] at h
  by_cases hc : 65 ≤ c.toNat ∧ c.toNat ≤ 90
  · exact upper_isWordChar c hc
  · rw [if_neg hc] at h
    rw [h]; exact ha

theorem mention_alice_iff_bounded (text : Str) :
    mentionInMessage asciiCase "alice".data text = true ↔
      boundedOccurrence asciiCase "alice".data text :=
  mention_iff_bounded_of_word_edges asciiCase "alice".data text 'a' 'e' rfl rfl
    (fun c h => asciiCase_fold_word 'a' c (by decide) (by decide) h)
    (fun c h => asciiCase_fold_word 'e' c (by decide) (by decide) h)

/-! ## Lemmas on push routing -/

theorem notifySession_direct (U : CaseTable) (channel sender text : Str) (s : UserSession)
    (hdm : HasPrefixHash channel = false) :
    (notifySession U channel sender text s).isSome = true ↔
      EqualFold U channel s.Username = true ∧ s.FCMToken ≠ [] ∧ s.Username ≠ sender := by
  unfold notifySession
  simp only [hdm, Bool.not_false, if_true]
  split
  · rename_i h
    simp only [Bool.and_eq_true, decide_eq_true_eq] at h
    simp [h.1.1, h.1.2, h.2]
  · rename_i h
    simp only [Bool.and_eq_true, decide_eq_true_eq] at h
    simp only [Option.isSome_none, Bool.false_eq_true, false_iff]
    rintro ⟨h1, h2, h3⟩
    exact h ⟨⟨h1, h2⟩, h3⟩

theorem notifySession_channel (U : CaseTable) (channel sender text : Str) (s : UserSession)
    (hch : HasPrefixHash channel = true) :
    (notifySession U channel sender text s).isSome = true ↔
      ToLower U channel ∈ s.Channels ∧ s.Username ≠ sender ∧ s.FCMToken ≠ [] ∧
        mentionInMessage U s.Username text = true := by
  unfold notifySession
  simp only [hch, Bool.not_true, Bool.false_eq_true, if_false]
  split
  · rename_i h
    simp only [Bool.and_eq_true, decide_eq_true_eq] at h
    split
    · rename_i hm
      simp [h.1.1, h.1.2, h.2, hm]
    · rename_i hm
      simp [hm]
  · rename_i h
    simp only [Bool.and_eq_true, decide_eq_true_eq] at h
    simp only [Option.isSome_none, Bool.false_eq_true, false_iff]
    rintro ⟨h1, h2, h3, _⟩
    exact h ⟨⟨h1, h2⟩, h3⟩

theorem EqualFold_iff (U : CaseTable) (s t : Str) :
    EqualFold U s t = true ↔ s.map U.fold = t.map U.fold := by
  simp [EqualFold]

/-! ## Further lemmas on the history map -/

theorem recordInbound_other (U : CaseTable) (d : Int) (h : HistoryMap) (e : Inbound) (k : Str)
    (hk : k ≠ ToLower U e.channel) : recordInbound U d h e k = h k := by
  unfold recordInbound
  split
  · simp [recordMessage, HistoryMap.set, Inbound.message, hk]
  · rfl

theorem recordInbound_direct (U : CaseTable) (d : Int) (h : HistoryMap) (e : Inbound)
    (hdm : HasPrefixHash e.channel = false) : recordInbound U d h e = h := by
  simp [recordInbound, hdm]

/-- A key present after a run was present before it or is the lower-cased
channel of a channel message of the run. -/
theorem recordAll_keys (U : CaseTable) (d : Int) : ∀ (es : List Inbound) (h : HistoryMap)
    (k : Str), recordAll U d h es k ≠ none →
      h k ≠ none ∨ ∃ e ∈ es, HasPrefixHash e.channel = true ∧ k = ToLower U e.channel := by
  intro es
  induction es with
  | nil => intro h k hk; exact Or.inl hk
  | cons e es ih =>
    intro h k hk
    rw [recordAll_cons] at hk
    rcases ih (recordInbound U d h e) k hk with h1 | ⟨f, hf, hp, hkf⟩
    · by_cases hke : k = ToLower U e.channel
      · by_cases hp : HasPrefixHash e.channel = true
        · exact Or.inr ⟨e, List.mem_cons_self _ _, hp, hke⟩
        · left
          have hdm : HasPrefixHash e.channel = false := by simpa using hp
          rwa [recordInbound_direct U d h e hdm] at h1
      · left
        rwa [recordInbound_other U d h e k hke] at h1
    · exact Or.inr ⟨f, List.mem_cons_of_mem _ hf, hp, hkf⟩

/-- What a run leaves under a key is determined by the messages of the run
recorded under that key: each is appended and followed by a prune. -/
theorem stored_recordAll_arrivals (U : CaseTable) (d : Int) (key : Str) :
    ∀ (es : List Inbound) (h : HistoryMap),
      stored (recordAll U d h es) key =
        (arrivals U key es).foldl (appendAndPrune d) (stored h key) := by
  intro es
  induction es with
  | nil => intro h; rfl
  | cons e es ih =>
    intro h
    rw [recordAll_cons, ih, stored_recordInbound]
    by_cases hc : HasPrefixHash e.channel = true ∧ key = ToLower U e.channel
    · have hf : arrivals U key (e :: es) = e :: arrivals U key es := by
        simp [arrivals, List.filter_cons, hc.1, hc.2]
      rw [if_pos hc, hf, List.foldl_cons]
      rfl
    · have hf : arrivals U key (e :: es) = arrivals U key es := by
        have hb : (HasPrefixHash e.channel && decide (ToLower U e.channel = key)) = false := by
          rw [Bool.and_eq_false_iff]
          by_cases hp : HasPrefixHash e.channel = true
          · right
            have : ¬ key = ToLower U e.channel := fun hk => hc ⟨hp, hk⟩
            simp [eq_comm, this]
          · left; simpa using hp
        simp [arrivals, List.filter_cons, hb]
      rw [if_neg hc, hf]

theorem mem_arrivals (U : CaseTable) (key : Str) (es : List Inbound) (e : Inbound) :
    e ∈ arrivals U key es ↔
      e ∈ es ∧ HasPrefixHash e.channel = true ∧ ToLower U e.channel = key := by
  simp [arrivals, List.mem_filter]

theorem asciiCase_lower_idem (c : Char) :
    asciiCase.lower (asciiCase.lower c) = asciiCase.lower c := by
  by_cases hc : 65 ≤ c.toNat ∧ c.toNat ≤ 90
  · have hcn : c = Char.ofNat c.toNat := (Char.ofNat_toNat c).symm
    obtain ⟨h1, h2⟩ := hc
    generalize c.toNat = n at hcn h1 h2
    subst hcn
    interval_cases n <;> decide
  · simp only [asciiCase, hc, if_false]

/-- The lower-case mapping of the ASCII table is the ASCII lower-casing of a
character. -/
theorem asciiCase_lower_eq : asciiCase.lower = Char.toLower := rfl

/-- A prune keeps the last entry when it is newer than the cutoff. -/
theorem prune_keeps_fresh_last (cutoff : Int) (m : Message) (hm : cutoff < m.Timestamp) :
    ∀ msgs : List Message, ∃ kept, prune cutoff (msgs ++ [m]) = kept ++ [m] := by
  intro msgs
  rw [prune_eq_dropWhile]
  induction msgs with
  | nil => exact ⟨[], by simp [List.dropWhile, stale, hm]⟩
  | cons a l ih =>
    by_cases ha : cutoff < a.Timestamp
    · exact ⟨a :: l, by simp [List.dropWhile, stale, ha]⟩
    · obtain ⟨kept, hkept⟩ := ih
      exact ⟨kept, by simpa [List.dropWhile, stale, ha] using hkept⟩

/-- The last message of a non-empty stored sequence is the last message of the
result of GetChannelHistory, whatever the limit. -/
theorem GetChannelHistory_getLast? (U : CaseTable) (h : HistoryMap) (channel : Str)
    (limit : Int) :
    (GetChannelHistory U h channel limit).getLast? =
      (stored h (ToLower U channel)).getLast? := by
  rw [GetChannelHistory_eq]
  split
  · rfl
  · rename_i hcond
    rw [List.getLast?_drop, if_neg]
    omega

/-! ## Lemmas on the retained window -/

/-- C1. Messages recorded to one channel, starting from the empty store, each
message that has arrived being newer than the cutoff (prune time minus
historyDuration) of every prune performed from its arrival on, are returned by
GetChannelHistory(channel, 0) exactly and in arrival order. -/
theorem history_returns_arrivals_in_order (U : CaseTable) (d : Int) (channel : Str)
    (es : List Inbound)
    (hch : ∀ e ∈ es, HasPrefixHash e.channel = true ∧ ToLower U e.channel = ToLower U channel)
    (hfresh : ∀ pre e post, es = pre ++ e :: post →
      ∀ m ∈ pre ++ [e], e.pruneAt - d < m.stamp) :
    GetChannelHistory U (recordAll U d emptyHistory es) channel 0 =
      es.map Inbound.message := by
  have hcut : ∀ pre e post, es = pre ++ e :: post →
      ∀ m ∈ pre ++ [e], cutoffAt e.pruneAt d < m.stamp := by
    intro pre e post hsplit m hm
    exact lt_of_le_of_lt (cutoffAt_le_sub e.pruneAt d) (hfresh pre e post hsplit m hm)
  rw [GetChannelHistory_zero, stored_recordAll_fresh U d (ToLower U channel) es emptyHistory hch
    (by intro m hm; simp [stored, emptyHistory] at hm) hcut]
  simp [stored, emptyHistory]

theorem history_returns_arrivals_in_order_witness :
    GetChannelHistory asciiCase
        (recordAll asciiCase 10 emptyHistory
          [⟨"#Go".data, "ann".data, "hi".data, 100, 101⟩,
           ⟨"#go".data, "bob".data, "yo".data, 105, 106⟩]) "#GO".data 0 =
      [⟨"#Go".data, "ann".data, "hi".data, 100⟩, ⟨"#go".data, "bob".data, "yo".data, 105⟩] :=
  history_returns_arrivals_in_order asciiCase 10 "#GO".data
    [⟨"#Go".data, "ann".data, "hi".data, 100, 101⟩,
     ⟨"#go".data, "bob".data, "yo".data, 105, 106⟩]
    (by decide)
    (by
      intro pre e post hsplit m hm
      rcases pre with _ | ⟨p, _ | ⟨q, pre⟩⟩
      · simp at hsplit
        obtain ⟨rfl, _⟩ := hsplit
        simp at hm
        subst hm
        decide
      · simp at hsplit
        obtain ⟨rfl, rfl, _⟩ := hsplit
        simp at hm
        rcases hm with rfl | rfl <;> decide
      · simp at hsplit)

/-- C3. For a channel holding count stored messages and a limit k with
0 < k < count, GetChannelHistory(channel, k) has exactly k messages and they
are the end of the stored sequence, in the stored order. -/
theorem history_limit_returns_last_k (U : CaseTable) (h : HistoryMap) (channel : Str) (k : Int)
    (hpos : 0 < k) (hlt : k < ((stored h (ToLower U channel)).length : Int)) :
    ((GetChannelHistory U h channel k).length : Int) = k ∧
    ∃ front, stored h (ToLower U channel) = front ++ GetChannelHistory U h channel k := by
  have hcond : ¬ (k ≤ 0 ∨ k ≥ ((stored h (ToLower U channel)).length : Int)) := by omega
  rw [GetChannelHistory_eq, if_neg hcond]
  constructor
  · rw [List.length_drop]
    omega
  · exact ⟨(stored h (ToLower U channel)).take ((stored h (ToLower U channel)).length - k.toNat),
      (List.take_append_drop _ _).symm⟩

theorem history_limit_returns_last_k_witness :
    ((GetChannelHistory asciiCase
        (recordAll asciiCase 1000 emptyHistory
          [⟨"#go".data, "ann".data, "one".data, 1, 1⟩,
           ⟨"#go".data, "bob".data, "two".data, 2, 2⟩,
           ⟨"#go".data, "cat".data, "three".data, 3, 3⟩]) "#go".data 2).length : Int) = 2 ∧
    ∃ front,
      stored (recordAll asciiCase 1000 emptyHistory
          [⟨"#go".data, "ann".data, "one".data, 1, 1⟩,
           ⟨"#go".data, "bob".data, "two".data, 2, 2⟩,
           ⟨"#go".data, "cat".data, "three".data, 3, 3⟩]) (ToLower asciiCase "#go".data) =
        front ++ GetChannelHistory asciiCase
          (recordAll asciiCase 1000 emptyHistory
            [⟨"#go".data, "ann".data, "one".data, 1, 1⟩,
             ⟨"#go".data, "bob".data, "two".data, 2, 2⟩,
             ⟨"#go".data, "cat".data, "three".data, 3, 3⟩]) "#go".data 2 :=
  history_limit_returns_last_k asciiCase _ "#go".data 2 (by decide) (by decide)

/-- C10. An inbound message whose channel does not start with "#" (a direct
message) leaves historyMap as it was: no key is added and no stored sequence
changes. -/
theorem direct_message_leaves_history (U : CaseTable) (d : Int) (sessions : List UserSession)
    (h : HistoryMap) (e : Inbound) (hdm : HasPrefixHash e.channel = false) :
    (onPrivmsg U d sessions h e).1 = h := by
  simp [onPrivmsg, recordInbound, hdm]

theorem direct_message_leaves_history_witness :
    (onPrivmsg asciiCase 1000 [⟨"bob".data, "tok".data, []⟩]
        (recordAll asciiCase 1000 emptyHistory [⟨"#go".data, "ann".data, "one".data, 1, 1⟩])
        ⟨"bob".data, "ann".data, "psst".data, 2, 2⟩).1 =
      recordAll asciiCase 1000 emptyHistory [⟨"#go".data, "ann".data, "one".data, 1, 1⟩] :=
  direct_message_leaves_history asciiCase 1000 _ _ ⟨"bob".data, "ann".data, "psst".data, 2, 2⟩
    (by decide)

/-- C4, as stated, fails: the text "hi [bot] there" holds the username "[bot]"
between two spaces, yet mentionInMessage answers false, since \b does not hold
between a space and a bracket. -/
theorem mention_bracket_nick_counterexample :
    ¬ (mentionInMessage asciiCase "[bot]".data "hi [bot] there".data = true ↔
        boundedOccurrence asciiCase "[bot]".data "hi [bot] there".data) := by
  intro h
  have hocc : boundedOccurrence asciiCase "[bot]".data "hi [bot] there".data :=
    ⟨"hi ".data, "[bot]".data, " there".data, by decide, by decide, by decide, by decide⟩
  have hfalse : mentionInMessage asciiCase "[bot]".data "hi [bot] there".data = false := by
    decide
  rw [h.2 hocc] at hfalse
  exact Bool.noConfusion hfalse

/-- C4, amended. For every username and text, mentionInMessage(username, text)
is true if and only if text contains, ignoring case, an occurrence of username
with a word boundary at each of its two ends: of the rune just before the end
and the rune just after it (a missing rune counting as a non-word rune) exactly
one is a word rune. For an occurrence that begins and ends with a word rune
this says that the runes around it are non-word runes. ("alice",
"hey ALICE how are you") is true and ("al", "alice is here") is false. -/
theorem mention_iff_word_boundary_occurrence :
    (∀ (U : CaseTable) (username text : Str),
      mentionInMessage U username text = true ↔
        ∃ pre occ post, text = pre ++ occ ++ post ∧
          occ.map U.fold = username.map U.fold ∧
          atWordBoundary pre.getLast? (occ ++ post).head? = true ∧
          atWordBoundary (pre ++ occ).getLast? post.head? = true) ∧
    mentionInMessage asciiCase "alice".data "hey ALICE how are you".data = true ∧
    mentionInMessage asciiCase "al".data "alice is here".data = false :=
  ⟨mentionInMessage_iff, by decide, by decide⟩

/-- C5. The runes of the username are matched literally and never as pattern
syntax: the pattern of mentionInMessage compiles, for every username, to \b,
the runes of the username as literals, \b; and whenever
mentionInMessage(username, text) is true, text contains username as a
contiguous substring up to letter case. So "a.b" is mentioned in
"talking about a.b today" and not in "talking about axb today". -/
theorem username_matched_literally :
    (∀ username : Str, compile (mentionPattern username) =
      some ⟨true, Inst.wordBoundary :: (username.map Inst.rune ++ [Inst.wordBoundary])⟩) ∧
    (∀ (U : CaseTable) (username text : Str), mentionInMessage U username text = true →
      ∃ pre occ post, text = pre ++ occ ++ post ∧ occ.map U.fold = username.map U.fold) ∧
    mentionInMessage asciiCase "a.b".data "talking about a.b today".data = true ∧
    mentionInMessage asciiCase "a.b".data "talking about axb today".data = false := by
  refine ⟨compile_mentionPattern, ?_, by decide, by decide⟩
  intro U username text h
  obtain ⟨pre, occ, post, hsplit, hocc, _, _⟩ := (mentionInMessage_iff U username text).1 h
  exact ⟨pre, occ, post, hsplit, hocc⟩

theorem username_matched_literally_witness :
    ∃ pre occ post, "talking about a.b today".data = pre ++ occ ++ post ∧
      occ.map asciiCase.fold = "a.b".data.map asciiCase.fold :=
  username_matched_literally.2.1 asciiCase "a.b".data "talking about a.b today".data (by decide)

/-- C6. For a direct message (channel without the leading "#") a push is
dispatched for a session if and only if the username of the session equals the
channel ignoring case, its token is non-empty and its username differs from the
sender; the joined channels of the session and the text of the message (hence
the mention matcher) do not enter the decision. -/
theorem direct_message_notifies_iff (U : CaseTable) (channel sender text : Str)
    (s : UserSession) (hdm : HasPrefixHash channel = false) :
    ((notifySession U channel sender text s).isSome = true ↔
      EqualFold U channel s.Username = true ∧ s.FCMToken ≠ [] ∧ s.Username ≠ sender) ∧
    (∀ joined : List Str,
      notifySession U channel sender text ⟨s.Username, s.FCMToken, joined⟩ =
        notifySession U channel sender text s) ∧
    (∀ other : Str,
      (notifySession U channel sender other s).isSome =
        (notifySession U channel sender text s).isSome) := by
  refine ⟨notifySession_direct U channel sender text s hdm, ?_, ?_⟩
  · intro joined
    simp [notifySession, hdm]
  · intro other
    rw [Bool.eq_iff_iff, notifySession_direct U channel sender other s hdm,
      notifySession_direct U channel sender text s hdm]

theorem direct_message_notifies_iff_witness :
    (notifySession asciiCase "bob".data "alice".data "hi there".data
      ⟨"Bob".data, "tok".data, []⟩).isSome = true :=
  (direct_message_notifies_iff asciiCase "bob".data "alice".data "hi there".data
    ⟨"Bob".data, "tok".data, []⟩ (by decide)).1.2 ⟨by decide, by decide, by decide⟩

/-- C7. For a channel message (channel starting with "#") a push is dispatched
for a session if and only if the session has joined the lower-cased channel,
its username differs from the sender, its token is non-empty and
mentionInMessage(username, text) is true; a member of the channel that is not
mentioned gets nothing. -/
theorem channel_message_notifies_iff (U : CaseTable) (channel sender text : Str)
    (s : UserSession) (hch : HasPrefixHash channel = true) :
    ((notifySession U channel sender text s).isSome = true ↔
      ToLower U channel ∈ s.Channels ∧ s.Username ≠ sender ∧ s.FCMToken ≠ [] ∧
        mentionInMessage U s.Username text = true) ∧
    (mentionInMessage U s.Username text = false →
      notifySession U channel sender text s = none) := by
  refine ⟨notifySession_channel U channel sender text s hch, ?_⟩
  intro hno
  have h := notifySession_channel U channel sender text s hch
  cases hn : notifySession U channel sender text s with
  | none => rfl
  | some p =>
    rw [hn] at h
    have := (h.1 rfl).2.2.2
    rw [hno] at this
    exact Bool.noConfusion this

theorem channel_message_notifies_iff_witness :
    (notifySession asciiCase "#General".data "alice".data "hello bob".data
      ⟨"bob".data, "tok1".data, ["#general".data]⟩).isSome = true ∧
    notifySession asciiCase "#General".data "alice".data "hello bob".data
      ⟨"carol".data, "tok2".data, ["#general".data]⟩ = none :=
  ⟨(channel_message_notifies_iff asciiCase "#General".data "alice".data "hello bob".data
      ⟨"bob".data, "tok1".data, ["#general".data]⟩ (by decide)).1.2
      ⟨by decide, by decide, by decide, by decide⟩,
   (channel_message_notifies_iff asciiCase "#General".data "alice".data "hello bob".data
      ⟨"carol".data, "tok2".data, ["#general".data]⟩ (by decide)).2 (by decide)⟩

/-- C8, as stated, fails: a direct message with sender and channel both "bob"
is pushed to the session whose username is "Bob", since the recipient is
matched ignoring case and the sender is compared exactly. -/
theorem self_message_case_counterexample :
    HasPrefixHash "bob".data = false ∧
    (routeNotifications asciiCase "bob".data "bob".data "note to self".data
      [⟨"Bob".data, "tok".data, []⟩]).length = 1 := by
  decide

/-- C8, amended. For a direct message whose sender is the same as its channel,
and active sessions among which every username equal to that identifier
ignoring case is equal to it exactly, no push is dispatched for any session. -/
theorem self_message_notifies_nobody (U : CaseTable) (channel sender text : Str)
    (sessions : List UserSession) (hdm : HasPrefixHash channel = false)
    (hself : sender = channel)
    (hexact : ∀ s ∈ sessions, EqualFold U channel s.Username = true → s.Username = channel) :
    routeNotifications U channel sender text sessions = [] := by
  unfold routeNotifications
  rw [List.filterMap_eq_nil_iff]
  intro s hs
  cases hn : notifySession U channel sender text s with
  | none => rfl
  | some p =>
    have h := (notifySession_direct U channel sender text s hdm).1 (by rw [hn]; rfl)
    exact absurd ((hexact s hs h.1).trans hself.symm) h.2.2

theorem self_message_notifies_nobody_witness :
    routeNotifications asciiCase "bob".data "bob".data "note to self".data
      [⟨"bob".data, "tok".data, []⟩, ⟨"carol".data, "tok2".data, []⟩] = [] :=
  self_message_notifies_nobody asciiCase "bob".data "bob".data "note to self".data
    [⟨"bob".data, "tok".data, []⟩, ⟨"carol".data, "tok2".data, []⟩]
    (by decide) rfl (by decide)

/-- C9, as stated, fails: the usernames "bob" and "Bob" are distinct, and a
direct message to "BOB" is pushed to both sessions. -/
theorem direct_message_two_recipients_counterexample :
    HasPrefixHash "BOB".data = false ∧
    ([(⟨"bob".data, "t1".data, []⟩ : UserSession), ⟨"Bob".data, "t2".data, []⟩].map
      UserSession.Username).Pairwise (· ≠ ·) ∧
    (routeNotifications asciiCase "BOB".data "alice".data "hi".data
      [⟨"bob".data, "t1".data, []⟩, ⟨"Bob".data, "t2".data, []⟩]).length = 2 := by
  decide

/-- C9, amended. For a direct message and active sessions whose usernames are
pairwise distinct ignoring case, at most one push is dispatched. -/
theorem direct_message_at_most_one (U : CaseTable) (channel sender text : Str)
    (sessions : List UserSession) (hdm : HasPrefixHash channel = false)
    (hdistinct : sessions.Pairwise (fun a b => EqualFold U a.Username b.Username = false)) :
    (routeNotifications U channel sender text sessions).length ≤ 1 := by
  unfold routeNotifications
  induction sessions with
  | nil => simp
  | cons s rest ih =>
    rw [List.pairwise_cons] at hdistinct
    cases hn : notifySession U channel sender text s with
    | none =>
      rw [List.filterMap_cons_none hn]
      exact ih hdistinct.2
    | some p =>
      have hs := (notifySession_direct U channel sender text s hdm).1 (by rw [hn]; rfl)
      have hrest : rest.filterMap (notifySession U channel sender text) = [] := by
        rw [List.filterMap_eq_nil_iff]
        intro r hr
        cases hnr : notifySession U channel sender text r with
        | none => rfl
        | some q =>
          have hrr := (notifySession_direct U channel sender text r hdm).1 (by rw [hnr]; rfl)
          have h1 := (EqualFold_iff U _ _).1 hs.1
          have h2 := (EqualFold_iff U _ _).1 hrr.1
          have h3 : EqualFold U s.Username r.Username = true :=
            (EqualFold_iff U _ _).2 (h1.symm.trans h2)
          rw [hdistinct.1 r hr] at h3
          exact Bool.noConfusion h3
      rw [List.filterMap_cons_some hn, hrest]
      simp

theorem direct_message_at_most_one_witness :
    (routeNotifications asciiCase "BOB".data "alice".data "hi".data
      [⟨"bob".data, "t1".data, []⟩, ⟨"carol".data, "t2".data, []⟩]).length ≤ 1 :=
  direct_message_at_most_one asciiCase "BOB".data "alice".data "hi".data
    [⟨"bob".data, "t1".data, []⟩, ⟨"carol".data, "t2".data, []⟩] (by decide) (by decide)

/-- C11. In every store reached by recording messages from the empty store,
every key of historyMap is the lower-cased form of the channel of a recorded
channel message, so two channel identifiers with the same lower-cased form
name one ChannelHistory: a message recorded under one is appended to the
sequence read under the other, and GetChannelHistory returns the same result
for both. With the ASCII table every key is its own lower-cased form, and
identifiers that are equal up to the case of ASCII letters share one
ChannelHistory in this way. -/
theorem history_keys_lower_cased (d : Int) (es : List Inbound) :
    (∀ (U : CaseTable) (k : Str), recordAll U d emptyHistory es k ≠ none →
      ∃ e ∈ es, HasPrefixHash e.channel = true ∧ k = ToLower U e.channel) ∧
    (∀ (U : CaseTable) (e : Inbound) (other : Str), HasPrefixHash e.channel = true →
      ToLower U other = ToLower U e.channel →
      stored (recordInbound U d (recordAll U d emptyHistory es) e) (ToLower U other) =
        prune (cutoffAt e.pruneAt d)
          (stored (recordAll U d emptyHistory es) (ToLower U other) ++ [e.message])) ∧
    (∀ (U : CaseTable) (c1 c2 : Str) (limit : Int), ToLower U c1 = ToLower U c2 →
      GetChannelHistory U (recordAll U d emptyHistory es) c1 limit =
        GetChannelHistory U (recordAll U d emptyHistory es) c2 limit) ∧
    (∀ k : Str, recordAll asciiCase d emptyHistory es k ≠ none → ToLower asciiCase k = k) ∧
    (∀ (e : Inbound) (other : Str), HasPrefixHash e.channel = true →
      other.map Char.toLower = e.channel.map Char.toLower →
      GetChannelHistory asciiCase
          (recordInbound asciiCase d (recordAll asciiCase d emptyHistory es) e) other 0 =
        prune (cutoffAt e.pruneAt d)
          (GetChannelHistory asciiCase (recordAll asciiCase d emptyHistory es) other 0 ++
            [e.message])) ∧
    (∀ (c1 c2 : Str) (limit : Int), c1.map Char.toLower = c2.map Char.toLower →
      GetChannelHistory asciiCase (recordAll asciiCase d emptyHistory es) c1 limit =
        GetChannelHistory asciiCase (recordAll asciiCase d emptyHistory es) c2 limit) := by
  have hkeys : ∀ (U : CaseTable) (k : Str), recordAll U d emptyHistory es k ≠ none →
      ∃ e ∈ es, HasPrefixHash e.channel = true ∧ k = ToLower U e.channel := by
    intro U k hk
    rcases recordAll_keys U d es emptyHistory k hk with h0 | h1
    · exact absurd rfl h0
    · exact h1
  have hland : ∀ (U : CaseTable) (e : Inbound) (other : Str), HasPrefixHash e.channel = true →
      ToLower U other = ToLower U e.channel →
      stored (recordInbound U d (recordAll U d emptyHistory es) e) (ToLower U other) =
        prune (cutoffAt e.pruneAt d)
          (stored (recordAll U d emptyHistory es) (ToLower U other) ++ [e.message]) := by
    intro U e other hp hsame
    rw [stored_recordInbound, if_pos ⟨hp, hsame⟩]
  have hread : ∀ (U : CaseTable) (c1 c2 : Str) (limit : Int), ToLower U c1 = ToLower U c2 →
      GetChannelHistory U (recordAll U d emptyHistory es) c1 limit =
        GetChannelHistory U (recordAll U d emptyHistory es) c2 limit := by
    intro U c1 c2 limit hsame
    rw [GetChannelHistory_eq, GetChannelHistory_eq, hsame]
  have hascii : ∀ c1 c2 : Str, c1.map Char.toLower = c2.map Char.toLower →
      ToLower asciiCase c1 = ToLower asciiCase c2 := by
    intro c1 c2 h
    simpa [ToLower, asciiCase_lower_eq] using h
  refine ⟨hkeys, hland, hread, ?_, ?_, ?_⟩
  · intro k hk
    obtain ⟨e, _, _, rfl⟩ := hkeys asciiCase k hk
    simp [ToLower, asciiCase_lower_idem]
  · intro e other hp hsame
    rw [GetChannelHistory_zero, GetChannelHistory_zero]
    exact hland asciiCase e other hp (hascii other e.channel hsame)
  · intro c1 c2 limit hsame
    exact hread asciiCase c1 c2 limit (hascii c1 c2 hsame)

theorem history_keys_lower_cased_witness :
    GetChannelHistory asciiCase
        (recordInbound asciiCase 10
          (recordAll asciiCase 10 emptyHistory [⟨"#Go".data, "ann".data, "hi".data, 1, 1⟩])
          ⟨"#GO".data, "bob".data, "yo".data, 2, 2⟩) "#go".data 0 =
      [⟨"#Go".data, "ann".data, "hi".data, 1⟩, ⟨"#GO".data, "bob".data, "yo".data, 2⟩] :=
  ((history_keys_lower_cased 10 [⟨"#Go".data, "ann".data, "hi".data, 1, 1⟩]).2.2.2.2.1
    ⟨"#GO".data, "bob".data, "yo".data, 2, 2⟩ "#go".data (by decide) (by decide)).trans
    (by decide)

/-- C13. For a channel with stored messages and a limit that is at most 0 or at
least the stored count, GetChannelHistory(channel, limit) is the whole stored
sequence, in its stored (arrival) order. -/
theorem history_limit_returns_all (U : CaseTable) (h : HistoryMap) (channel : Str)
    (ch : ChannelHistory) (limit : Int) (hkey : h (ToLower U channel) = some ch)
    (hne : ch.Messages ≠ [])
    (hlimit : limit ≤ 0 ∨ limit ≥ (ch.Messages.length : Int)) :
    GetChannelHistory U h channel limit = ch.Messages := by
  have hlen : ¬ ch.Messages.length = 0 := fun h0 => hne (List.length_eq_zero.1 h0)
  simp only [GetChannelHistory, hkey, hlen, if_false, hlimit, if_true]

theorem history_limit_returns_all_witness :
    GetChannelHistory asciiCase
        (emptyHistory.set "#go".data
          ⟨[⟨"#go".data, "ann".data, "one".data, 1⟩, ⟨"#Go".data, "bob".data, "two".data, 2⟩]⟩)
        "#GO".data 5 =
      [⟨"#go".data, "ann".data, "one".data, 1⟩, ⟨"#Go".data, "bob".data, "two".data, 2⟩] :=
  history_limit_returns_all asciiCase _ "#GO".data
    ⟨[⟨"#go".data, "ann".data, "one".data, 1⟩, ⟨"#Go".data, "bob".data, "two".data, 2⟩]⟩ 5
    (by decide) (by decide) (by decide)

/-- C18. The prune step with a cutoff removes every entry before the first
entry whose timestamp is strictly after the cutoff and keeps that entry and all
that follow it unchanged, whatever their timestamps; when no timestamp is
strictly after the cutoff the result is empty, and when the first entry is
strictly after the cutoff the sequence is unchanged. -/
theorem prune_drops_stale_front (cutoff : Int) (msgs : List Message) :
    (∀ (front back : List Message) (m : Message), msgs = front ++ m :: back →
      (∀ x ∈ front, ¬ cutoff < x.Timestamp) → cutoff < m.Timestamp →
      prune cutoff msgs = m :: back) ∧
    ((∀ x ∈ msgs, ¬ cutoff < x.Timestamp) → prune cutoff msgs = []) ∧
    (∀ (m : Message) (back : List Message), msgs = m :: back → cutoff < m.Timestamp →
      prune cutoff msgs = msgs) := by
  have hfirst : ∀ (front back : List Message) (m : Message),
      (∀ x ∈ front, ¬ cutoff < x.Timestamp) → cutoff < m.Timestamp →
      (front ++ m :: back).dropWhile (stale cutoff) = m :: back := by
    intro front back m hfront hm
    induction front with
    | nil => simp [List.dropWhile, stale, hm]
    | cons a l ih =>
      have ha : ¬ cutoff < a.Timestamp := hfront a (List.mem_cons_self _ _)
      have hl : ∀ x ∈ l, ¬ cutoff < x.Timestamp :=
        fun x hx => hfront x (List.mem_cons_of_mem _ hx)
      simpa [List.dropWhile, stale, ha] using ih hl
  refine ⟨?_, ?_, ?_⟩
  · intro front back m hsplit hfront hm
    rw [prune_eq_dropWhile, hsplit]
    exact hfirst front back m hfront hm
  · intro hall
    rw [prune_eq_dropWhile, List.dropWhile_eq_nil_iff]
    intro x hx
    simp [stale, hall x hx]
  · intro m back hsplit hm
    rw [prune_eq_dropWhile, hsplit]
    exact hfirst [] back m (by simp) hm

theorem prune_drops_stale_front_witness :
    prune 10 [⟨"#go".data, "ann".data, "one".data, 5⟩, ⟨"#go".data, "bob".data, "two".data, 20⟩,
        ⟨"#go".data, "cat".data, "three".data, 7⟩] =
      [⟨"#go".data, "bob".data, "two".data, 20⟩, ⟨"#go".data, "cat".data, "three".data, 7⟩] :=
  (prune_drops_stale_front 10 _).1 [⟨"#go".data, "ann".data, "one".data, 5⟩]
    [⟨"#go".data, "cat".data, "three".data, 7⟩] ⟨"#go".data, "bob".data, "two".data, 20⟩
    rfl (by decide) (by decide)

/-- C19. Recording a channel message changes historyMap only under the
lower-cased channel of the message: under every other key the entry is the one
held before, and for every channel with another lower-cased form
GetChannelHistory returns, for any limit, what it returned before. -/
theorem recording_changes_one_key (U : CaseTable) (d : Int) (sessions : List UserSession)
    (h : HistoryMap) (e : Inbound) (_hch : HasPrefixHash e.channel = true) :
    (∀ k, k ≠ ToLower U e.channel → (onPrivmsg U d sessions h e).1 k = h k) ∧
    (∀ (channel : Str) (limit : Int), ToLower U channel ≠ ToLower U e.channel →
      GetChannelHistory U (onPrivmsg U d sessions h e).1 channel limit =
        GetChannelHistory U h channel limit) := by
  constructor
  · intro k hk
    exact recordInbound_other U d h e k hk
  · intro channel limit hk
    have hsame : (onPrivmsg U d sessions h e).1 (ToLower U channel) = h (ToLower U channel) :=
      recordInbound_other U d h e _ hk
    simp only [GetChannelHistory, hsame]

theorem recording_changes_one_key_witness :
    GetChannelHistory asciiCase
        (onPrivmsg asciiCase 1000 []
          (recordAll asciiCase 1000 emptyHistory [⟨"#go".data, "ann".data, "one".data, 1, 1⟩])
          ⟨"#rust".data, "bob".data, "two".data, 2, 2⟩).1 "#Go".data 0 =
      GetChannelHistory asciiCase
        (recordAll asciiCase 1000 emptyHistory [⟨"#go".data, "ann".data, "one".data, 1, 1⟩])
        "#Go".data 0 :=
  (recording_changes_one_key asciiCase 1000 [] _ ⟨"#rust".data, "bob".data, "two".data, 2, 2⟩
    (by decide)).2 "#Go".data 0 (by decide)

/-- C12, as stated, fails: with a retention window of 10 and one message of
timestamp 100 recorded at time 100, the stored entry is older than the cutoff
of a query at time 1000, and GetChannelHistory, which reads no clock, still
returns it. -/
theorem aged_out_entry_returned_counterexample :
    (∀ m ∈ stored
        (recordAll asciiCase 10 emptyHistory [⟨"#go".data, "ann".data, "hi".data, 100, 100⟩])
        (ToLower asciiCase "#go".data), m.Timestamp < 1000 - 10) ∧
    GetChannelHistory asciiCase
        (recordAll asciiCase 10 emptyHistory [⟨"#go".data, "ann".data, "hi".data, 100, 100⟩])
        "#go".data 0 =
      [⟨"#go".data, "ann".data, "hi".data, 100⟩] := by
  decide

/-- C12, amended. GetChannelHistory returns zero messages when no channel
message was ever recorded under the lower-cased channel, and also when the
sequence stored for the channel is empty, as it is after an append at which no
entry, the appended one included, was newer than the cutoff (prune time minus
historyDuration, for a historyDuration other than the least int64 value); in
the second case the key is present, and the result is the same as in the first.
The query reads no clock: a message that was newer than the cutoff of its own
append is the last message of every result for its channel until the next
append, however old it has become. -/
theorem history_empty_when_absent_or_emptied (U : CaseTable) (d : Int) :
    (∀ (es : List Inbound) (channel : Str) (limit : Int),
      (∀ e ∈ es, ¬ (HasPrefixHash e.channel = true ∧
        ToLower U e.channel = ToLower U channel)) →
      GetChannelHistory U (recordAll U d emptyHistory es) channel limit = []) ∧
    (∀ (h : HistoryMap) (channel : Str) (limit : Int),
      stored h (ToLower U channel) = [] → GetChannelHistory U h channel limit = []) ∧
    (∀ (h : HistoryMap) (e : Inbound) (channel : Str) (limit : Int), d ≠ minInt64 →
      HasPrefixHash e.channel = true → ToLower U channel = ToLower U e.channel →
      (∀ m ∈ stored h (ToLower U e.channel) ++ [e.message],
        ¬ e.pruneAt - d < m.Timestamp) →
      recordInbound U d h e (ToLower U channel) = some ⟨[]⟩ ∧
      GetChannelHistory U (recordInbound U d h e) channel limit = []) ∧
    (∀ (h : HistoryMap) (e : Inbound) (channel : Str) (limit : Int), d ≠ minInt64 →
      HasPrefixHash e.channel = true → ToLower U channel = ToLower U e.channel →
      e.pruneAt - d < e.stamp →
      (GetChannelHistory U (recordInbound U d h e) channel limit).getLast? =
        some e.message) := by
  have hempty : ∀ (h : HistoryMap) (channel : Str) (limit : Int),
      stored h (ToLower U channel) = [] → GetChannelHistory U h channel limit = [] := by
    intro h channel limit hs
    rw [GetChannelHistory_eq, hs]
    simp
  refine ⟨?_, hempty, ?_, ?_⟩
  · intro es channel limit hnone
    apply hempty
    rw [stored_recordAll_arrivals]
    have harr : arrivals U (ToLower U channel) es = [] := by
      rw [List.eq_nil_iff_forall_not_mem]
      intro e he
      rw [mem_arrivals] at he
      exact hnone e he.1 he.2
    rw [harr]
    rfl
  · intro h e channel limit hd hp hkey hstale
    have hpr : prune (cutoffAt e.pruneAt d)
        (stored h (ToLower U e.channel) ++ [e.message]) = [] := by
      rw [prune_eq_dropWhile, List.dropWhile_eq_nil_iff, cutoffAt_eq_sub _ _ hd]
      intro x hx
      simp [stale, hstale x hx]
    have hst : stored (recordInbound U d h e) (ToLower U e.channel) = [] := by
      rw [stored_recordInbound, if_pos ⟨hp, rfl⟩, hpr]
    constructor
    · rw [hkey]
      have hsome : ∃ ch, recordInbound U d h e (ToLower U e.channel) = some ch := by
        simp [recordInbound, hp, recordMessage, HistoryMap.set, Inbound.message]
      obtain ⟨ch, hch⟩ := hsome
      rw [stored, hch] at hst
      rw [hch]
      cases ch
      simp only at hst
      rw [hst]
    · apply hempty
      rw [hkey, hst]
  · intro h e channel limit hd hp hkey hfresh
    have hcut : cutoffAt e.pruneAt d < e.message.Timestamp := by
      rw [cutoffAt_eq_sub _ _ hd]
      exact hfresh
    obtain ⟨kept, hkept⟩ :=
      prune_keeps_fresh_last (cutoffAt e.pruneAt d) e.message hcut
        (stored h (ToLower U e.channel))
    rw [GetChannelHistory_getLast?, hkey, stored_recordInbound, if_pos ⟨hp, rfl⟩, hkept]
    simp

theorem history_empty_when_absent_or_emptied_witness :
    recordInbound asciiCase 0 emptyHistory ⟨"#go".data, "ann".data, "hi".data, 100, 100⟩
        (ToLower asciiCase "#GO".data) = some ⟨[]⟩ ∧
    GetChannelHistory asciiCase
        (recordInbound asciiCase 0 emptyHistory ⟨"#go".data, "ann".data, "hi".data, 100, 100⟩)
        "#GO".data 0 = [] :=
  (history_empty_when_absent_or_emptied asciiCase 0).2.2.1 emptyHistory
    ⟨"#go".data, "ann".data, "hi".data, 100, 100⟩ "#GO".data 0 (by decide) (by decide)
    (by decide) (by decide)

/-- The message recorded at time 100 with a retention window of 10 is the last
message of the result, which does not depend on when the query is made. -/
theorem aged_entry_still_last :
    (GetChannelHistory asciiCase
        (recordInbound asciiCase 10 emptyHistory ⟨"#go".data, "ann".data, "hi".data, 100, 100⟩)
        "#GO".data 1).getLast? = some ⟨"#go".data, "ann".data, "hi".data, 100⟩ := by
  decide

/-- C14. A push dispatched for a direct message has the title
"Direct message from " followed by the sender, the text as its body and the
type "dm"; a push dispatched for a channel message has the title "Mention in "
followed by the channel, the body sender, ": ", text and the type "mention"; in
both the payload entries sender and channel_name are the sender and the channel
as received. -/
theorem push_content (U : CaseTable) (channel sender text : Str) (s : UserSession) (p : Push)
    (hp : notifySession U channel sender text s = some p) :
    (HasPrefixHash channel = false →
      p.title = "Direct message from ".data ++ sender ∧ p.body = text ∧
        p.data.lookup "type".data = some "dm".data) ∧
    (HasPrefixHash channel = true →
      p.title = "Mention in ".data ++ channel ∧ p.body = sender ++ ": ".data ++ text ∧
        p.data.lookup "type".data = some "mention".data) ∧
    p.data.lookup "sender".data = some sender ∧
    p.data.lookup "channel_name".data = some channel ∧
    p.data.map Prod.fst = ["sender".data, "channel_name".data, "type".data] ∧
    p.token = s.FCMToken := by
  unfold notifySession at hp
  by_cases hc : HasPrefixHash channel = true
  · simp only [hc, Bool.not_true, Bool.false_eq_true, if_false] at hp
    split at hp
    · split at hp
      · simp only [Option.some.injEq] at hp
        subst hp
        refine ⟨fun h => ?_, fun _ => ⟨rfl, rfl, rfl⟩, rfl, rfl, rfl, rfl⟩
        rw [hc] at h
        exact Bool.noConfusion h
      · exact Option.noConfusion hp
    · exact Option.noConfusion hp
  · have hd : HasPrefixHash channel = false := by simpa using hc
    simp only [hd, Bool.not_false, if_true] at hp
    split at hp
    · simp only [Option.some.injEq] at hp
      subst hp
      refine ⟨fun _ => ⟨rfl, rfl, rfl⟩, fun h => ?_, rfl, rfl, rfl, rfl⟩
      rw [hd] at h
      exact Bool.noConfusion h
    · exact Option.noConfusion hp

theorem push_content_witness :
    (⟨"tok".data, "Mention in #General".data, "alice: hello bob".data,
        [("sender".data, "alice".data), ("channel_name".data, "#General".data),
          ("type".data, "mention".data)]⟩ : Push).data.lookup "type".data =
      some "mention".data :=
  ((push_content asciiCase "#General".data "alice".data "hello bob".data
    ⟨"bob".data, "tok".data, ["#general".data]⟩ _ (by decide)).2.1 (by decide)).2.2

/-- C16. Entered with historyDuration at its initial value, InitGatewayBot does
not fail on a retention string that does not parse, and leaves the retention
window at the default of 7 days, which is 168 hours; on a string that parses
the retention window becomes the parsed value. -/
theorem retention_default_on_parse_error (ParseDuration : Str → Option Int) (configured : Str) :
    (ParseDuration configured = none →
      InitGatewayBot ParseDuration true configured defaultHistoryDuration =
        (false, defaultHistoryDuration)) ∧
    defaultHistoryDuration = 168 * Hour ∧
    defaultHistoryDuration = 7 * (24 * 60 * 60 * 1000000000) ∧
    (∀ duration current, ParseDuration configured = some duration →
      InitGatewayBot ParseDuration true configured current = (false, duration)) := by
  refine ⟨?_, by decide, by decide, ?_⟩
  · intro hnone
    simp [InitGatewayBot, hnone]
  · intro duration current hsome
    simp [InitGatewayBot, hsome]

theorem retention_default_on_parse_error_witness :
    InitGatewayBot (fun s => if s = "36h".data then some (36 * Hour) else none) true
        "one week".data defaultHistoryDuration = (false, defaultHistoryDuration) ∧
    InitGatewayBot (fun s => if s = "36h".data then some (36 * Hour) else none) true
        "36h".data defaultHistoryDuration = (false, 36 * Hour) :=
  ⟨(retention_default_on_parse_error _ "one week".data).1 (by decide),
   (retention_default_on_parse_error (fun s => if s = "36h".data then some (36 * Hour) else none)
      "36h".data).2.2.2 (36 * Hour) defaultHistoryDuration (by decide)⟩

end Irc
